import Mathlib

/-
Shallow embedding of the grid-binning and coverage-aggregation engine of
src/SatelliteCoverage/coverage_frequency_map.py and of the Delaunay
triangulation driver src/d02_delaunay_triangulation.py
(repository: a-bouchat/ice-tracker-deformations).

Modelling conventions:
  - machine floats are modelled as exact rationals (ℚ);
  - a numpy coordinate-pair set (the tuple xy of two parallel arrays in the
    source) is modelled as a List of pairs, and the per-axis coordinate
    arrays of get_map_bins as two lists;
  - fallible numpy operations are modelled with Except / Option, the error
    constructors being named after the failure taxonomy of the spec and
    documented with the concrete library exception they embed.
-/

/-- Failure modes of the bin computation in get_map_bins.
insufficientData embeds the ValueError numpy raises when np.max / np.min is
applied to a zero-size array (the spec calls this failure
InsufficientDataError); zeroStep embeds the ZeroDivisionError numpy raises
when np.arange is called with step 0 (which happens when the data extent on
an axis is zero, and also stands in for the degenerate float behaviour when
the per-axis bin count floors to 0). -/
inductive BinError where
  | insufficientData : BinError
  | zeroStep : BinError
deriving DecidableEq

/-- Model of np.max: the maximum of the array, none on the empty array
(where numpy raises ValueError, a zero-size reduction has no identity). -/
def npMax : List ℚ → Option ℚ
  | [] => none
  | x :: xs => some (xs.foldl max x)

/-- Model of np.min: the minimum of the array, none on the empty array. -/
def npMin : List ℚ → Option ℚ
  | [] => none
  | x :: xs => some (xs.foldl min x)

/-- Model of np.arange(start, stop, step): the values start + k * step for
k = 0, 1, ... of count ⌈(stop - start) / step⌉ (clamped below at 0), which
is how numpy computes the length of the result. numpy raises
ZeroDivisionError when step = 0. -/
def arange (start stop step : ℚ) : Except BinError (List ℚ) :=
  if step = 0 then Except.error BinError.zeroStep
  else Except.ok ((List.range (max ⌈(stop - start) / step⌉ 0).toNat).map
    (fun k : ℕ => start + (k : ℚ) * step))

/-- Lower x extent of the polar-stereographic basin bounding box (metres),
a constant of get_map_bins. -/
def lxextent : ℚ := -4400000

/-- Upper x extent of the basin bounding box (metres). -/
def uxextent : ℚ := 2500000

/-- Upper y extent of the basin bounding box (metres). -/
def uyextent : ℚ := 3500000

/-- Lower y extent of the basin bounding box (metres). -/
def lyextent : ℚ := -2500000

/-- Embedding of get_map_bins (coverage_frequency_map.py, lines 33 to 59):
per axis, the basin extent in metres is divided by 1000 * resolution and
floored to a bin count; the bin step is the actual data extent divided by
that count; the edges are arange(min, max + step, step). The x and y
coordinate arrays of the input tuple xy are the parameters xi and yj. -/
def get_map_bins (xi yj : List ℚ) (resolution : ℚ) :
    Except BinError (List ℚ × List ℚ) :=
  let xscale : ℤ := ⌊(uxextent - lxextent) / (1000 * resolution)⌋
  let yscale : ℤ := ⌊(uyextent - lyextent) / (1000 * resolution)⌋
  match npMax xi, npMin xi, npMax yj, npMin yj with
  | some xmax, some xmin, some ymax, some ymin =>
    let dxi : ℚ := (xmax - xmin) / (xscale : ℚ)
    let dyj : ℚ := (ymax - ymin) / (yscale : ℚ)
    match arange xmin (xmax + dxi) dxi, arange ymin (ymax + dyj) dyj with
    | Except.ok xb, Except.ok yb => Except.ok (xb, yb)
    | Except.error e, _ => Except.error e
    | _, Except.error e => Except.error e
  | _, _, _, _ => Except.error BinError.insufficientData

/- Helper lemmas about arange on a nondegenerate axis. -/

theorem arange_bins (a b : ℚ) (n : ℤ) (hab : a < b) (hn : 1 ≤ n) :
    arange a (b + (b - a) / (n : ℚ)) ((b - a) / (n : ℚ)) =
      Except.ok ((List.range (n.toNat + 1)).map
        (fun k : ℕ => a + (k : ℚ) * ((b - a) / (n : ℚ)))) := by
  have hΔ : b - a ≠ 0 := sub_ne_zero.mpr (ne_of_gt hab)
  have hn0 : (n : ℚ) ≠ 0 := Int.cast_ne_zero.mpr (by omega)
  have hstep : (b - a) / (n : ℚ) ≠ 0 := div_ne_zero hΔ hn0
  have hq : (b + (b - a) / (n : ℚ) - a) / ((b - a) / (n : ℚ)) =
      ((n + 1 : ℤ) : ℚ) := by
    field_simp
    ring
  have hceil : ⌈(b + (b - a) / (n : ℚ) - a) / ((b - a) / (n : ℚ))⌉ = n + 1 := by
    rw [hq, Int.ceil_intCast]
  have hmax : max (n + 1) 0 = n + 1 := max_eq_left (by omega)
  have htn : (n + 1).toNat = n.toNat + 1 := by omega
  unfold arange
  rw [if_neg hstep, hceil, hmax, htn]

theorem range_map_headD (m : ℕ) (f : ℕ → ℚ) :
    ((List.range (m + 1)).map f).headD 0 = f 0 := by
  rw [List.range_succ_eq_map m]
  rfl

theorem range_map_getLastD (m : ℕ) (f : ℕ → ℚ) :
    ((List.range (m + 1)).map f).getLastD 0 = f m := by
  rw [List.range_succ m, List.map_append]
  simp [List.getLastD_concat]

/-- Claim C7: get_map_bins applied to an empty point set fails with the
insufficient-data error (the failure of np.max / np.min on an empty array,
named InsufficientDataError by the spec), for every resolution: the
per-axis minima and maxima cannot be computed, and no other outcome (a
success, or the zero-step failure) occurs. -/
theorem get_map_bins_empty_insufficient_data (resolution : ℚ) :
    get_map_bins [] [] resolution = Except.error BinError.insufficientData := rfl

/-- Claim C1, counterexample: for the non-empty point set consisting of the
single projected point (5, 5) and resolution R = 1 > 0, get_map_bins does
not return a bin-edge sequence at all: the data extent is zero on each
axis, so the bin step is zero and arange fails (in numpy, a
ZeroDivisionError), refuting the claim that every non-empty point set and
every R > 0 yield bin edges bracketing the data. -/
theorem get_map_bins_single_point_counterexample :
    get_map_bins [5] [5] 1 = Except.error BinError.zeroStep := by
  unfold get_map_bins npMax npMin
  norm_num [arange]

/-- Claim C1 (amended): for every non-empty point set whose minimum is
strictly below its maximum on each axis, and every resolution R > 0 for
which the per-axis bin count (the basin extent in metres divided by
R * 1000 and floored) is at least 1, get_map_bins returns per-axis edge
sequences whose first edge is at most the per-axis data minimum and whose
last edge is at least the per-axis data maximum, and the number of bins
(length of the edges minus 1) equals the floored per-axis bin count; in
particular, when the data extent equals the full basin extent the number
of bins equals floor(basin_extent / (R * 1000)). On a degenerate axis
(minimum equal to maximum) get_map_bins instead fails with a zero bin
step. -/
theorem get_map_bins_bounds (xi yj : List ℚ) (R xmx xmn ymx ymn : ℚ)
    (hR : 0 < R)
    (hxmax : npMax xi = some xmx) (hxmin : npMin xi = some xmn)
    (hymax : npMax yj = some ymx) (hymin : npMin yj = some ymn)
    (hx : xmn < xmx) (hy : ymn < ymx)
    (hnx : 1 ≤ ⌊(uxextent - lxextent) / (1000 * R)⌋)
    (hny : 1 ≤ ⌊(uyextent - lyextent) / (1000 * R)⌋) :
    ∃ xb yb, get_map_bins xi yj R = Except.ok (xb, yb) ∧
      xb.headD 0 ≤ xmn ∧ xmx ≤ xb.getLastD 0 ∧
      yb.headD 0 ≤ ymn ∧ ymx ≤ yb.getLastD 0 ∧
      (xb.length : ℤ) - 1 = ⌊(uxextent - lxextent) / (1000 * R)⌋ ∧
      (yb.length : ℤ) - 1 = ⌊(uyextent - lyextent) / (1000 * R)⌋ := by
  set nx : ℤ := ⌊(uxextent - lxextent) / (1000 * R)⌋ with hnxdef
  set ny : ℤ := ⌊(uyextent - lyextent) / (1000 * R)⌋ with hnydef
  have hnxq : ((nx : ℚ)) ≠ 0 := Int.cast_ne_zero.mpr (by omega)
  have hnyq : ((ny : ℚ)) ≠ 0 := Int.cast_ne_zero.mpr (by omega)
  have hnxc : ((nx.toNat : ℕ) : ℚ) = (nx : ℚ) := by
    exact_mod_cast Int.toNat_of_nonneg (le_trans zero_le_one hnx)
  have hnyc : ((ny.toNat : ℕ) : ℚ) = (ny : ℚ) := by
    exact_mod_cast Int.toNat_of_nonneg (le_trans zero_le_one hny)
  unfold get_map_bins
  rw [hxmax, hxmin, hymax, hymin]
  simp only [← hnxdef, ← hnydef]
  rw [arange_bins xmn xmx nx hx hnx, arange_bins ymn ymx ny hy hny]
  refine ⟨_, _, rfl, ?_, ?_, ?_, ?_, ?_, ?_⟩
  · rw [range_map_headD]
    simp
  · rw [range_map_getLastD]
    have h : xmn + ((nx.toNat : ℕ) : ℚ) * ((xmx - xmn) / (nx : ℚ)) = xmx := by
      rw [hnxc]
      field_simp
    rw [h]
  · rw [range_map_headD]
    simp
  · rw [range_map_getLastD]
    have h : ymn + ((ny.toNat : ℕ) : ℚ) * ((ymx - ymn) / (ny : ℚ)) = ymx := by
      rw [hnyc]
      field_simp
    rw [h]
  · simp only [List.length_map, List.length_range]
    omega
  · simp only [List.length_map, List.length_range]
    omega

/-- Claim C1 witness: a concrete run of the amended statement, with the data
extent equal to the full basin extent on both axes and R = 1000 km, so that
the per-axis bin count is floor(6900000 / 1000000) = 6 for x and
floor(6000000 / 1000000) = 6 for y. -/
theorem get_map_bins_bounds_witness :
    ∃ xb yb,
      get_map_bins [-4400000, 2500000] [-2500000, 3500000] 1000 =
        Except.ok (xb, yb) ∧
      xb.headD 0 ≤ -4400000 ∧ (2500000 : ℚ) ≤ xb.getLastD 0 ∧
      yb.headD 0 ≤ -2500000 ∧ (3500000 : ℚ) ≤ yb.getLastD 0 ∧
      (xb.length : ℤ) - 1 = ⌊(uxextent - lxextent) / (1000 * 1000)⌋ ∧
      (yb.length : ℤ) - 1 = ⌊(uyextent - lyextent) / (1000 * 1000)⌋ :=
  get_map_bins_bounds [-4400000, 2500000] [-2500000, 3500000]
    1000 2500000 (-4400000) 3500000 (-2500000)
    (by norm_num) rfl rfl rfl rfl (by norm_num) (by norm_num)
    (by norm_num [uxextent, lxextent]) (by norm_num [uyextent, lyextent])

/- Rasterizer: coverage_histogram2d (coverage_frequency_map.py, lines 62
to 83). np.histogram2d(xi, yj, bins=(xbins, ybins)) counts points per
cell; a value belongs to bin i when edge i <= value < edge i+1, except
that a value equal to the rightmost edge falls in the last bin; values
outside the edge range are dropped. The count grid is then clamped with
H[H > 1] = 1. -/

/-- Bin index assigned by np.histogram2d to a value for the given monotone
edge list: none when the value lies outside the edge range (the point is
dropped), otherwise the index of the bin whose left edge is the greatest
edge at most the value, a value equal to the last edge falling in the last
bin. -/
def binOf (edges : List ℚ) (v : ℚ) : Option ℕ :=
  if edges.length < 2 then none
  else if v < edges.headD 0 then none
  else if edges.getLastD 0 < v then none
  else some (min ((edges.filter (fun e => e ≤ v)).length - 1) (edges.length - 2))

/-- Number of input points binned into cell (i, j) by np.histogram2d. -/
def cellCount (pts : List (ℚ × ℚ)) (xe ye : List ℚ) (i j : ℕ) : ℕ :=
  (pts.filter (fun p => binOf xe p.1 == some i && binOf ye p.2 == some j)).length

/-- The 2D count grid of np.histogram2d, rows indexed along the x bins and
columns along the y bins. -/
def hist2d (pts : List (ℚ × ℚ)) (xe ye : List ℚ) : List (List ℕ) :=
  (List.range (xe.length - 1)).map (fun i =>
    (List.range (ye.length - 1)).map (fun j => cellCount pts xe ye i j))

/-- Elementwise clamp H[H > 1] = 1 of coverage_histogram2d. -/
def clampCell (h : ℚ) : ℚ := if 1 < h then 1 else h

/-- Embedding of coverage_histogram2d: the 2D point-count histogram over
the given bin edges, with every cell value clamped to at most 1. -/
def coverage_histogram2d (pts : List (ℚ × ℚ)) (xe ye : List ℚ) :
    List (List ℚ) :=
  (hist2d pts xe ye).map (fun row => row.map (fun c : ℕ => clampCell (c : ℚ)))

/-- Reading cell (i, j) of a grid stored as a list of rows. -/
def getCell (A : List (List ℚ)) (i j : ℕ) : Option ℚ :=
  (A[i]?).bind (fun row => row[j]?)

/-- The all-zero grid with r rows and c columns (the result of resizing the
initial empty numpy array to shape (r, c)). -/
def npZeros (r c : ℕ) : List (List ℚ) :=
  List.replicate r (List.replicate c 0)

theorem clampCell_count (c : ℕ) :
    clampCell (c : ℚ) = if 0 < c then 1 else 0 := by
  match c with
  | 0 => norm_num [clampCell]
  | 1 => norm_num [clampCell]
  | (n + 2) =>
    have h : (1 : ℚ) < ((n + 2 : ℕ) : ℚ) := by
      push_cast
      linarith [Nat.cast_nonneg (α := ℚ) n]
    rw [clampCell, if_pos h, if_pos (by omega : 0 < n + 2)]

theorem getCell_hist (pts : List (ℚ × ℚ)) (xe ye : List ℚ) (i j : ℕ) (v : ℚ)
    (h : getCell (coverage_histogram2d pts xe ye) i j = some v) :
    v = clampCell ((cellCount pts xe ye i j : ℕ) : ℚ) := by
  unfold getCell coverage_histogram2d hist2d at h
  simp only [List.map_map, List.getElem?_map] at h
  by_cases hi : i < xe.length - 1
  · rw [List.getElem?_range hi] at h
    simp only [Option.map_some', Option.some_bind, Function.comp_apply,
      List.getElem?_map] at h
    by_cases hj : j < ye.length - 1
    · rw [List.getElem?_range hj] at h
      simp only [Option.map_some', Option.some_inj] at h
      exact h.symm
    · rw [List.getElem?_eq_none
        (by simp only [List.length_range]; omega)] at h
      simp at h
  · rw [List.getElem?_eq_none
      (by simp only [List.length_range]; omega)] at h
    simp at h

/-- Claim C5: for every input point set and every pair of bin-edge lists,
every cell value of the occupancy grid returned by coverage_histogram2d is
0 or 1, is 1 exactly when the cell holds at least one point, and is 0
exactly when the cell holds none. -/
theorem coverage_histogram2d_binary (pts : List (ℚ × ℚ)) (xe ye : List ℚ)
    (i j : ℕ) (v : ℚ)
    (h : getCell (coverage_histogram2d pts xe ye) i j = some v) :
    (v = 0 ∨ v = 1) ∧ (0 < cellCount pts xe ye i j → v = 1) ∧
      (cellCount pts xe ye i j = 0 → v = 0) := by
  have hv := getCell_hist pts xe ye i j v h
  rw [clampCell_count] at hv
  by_cases hc : 0 < cellCount pts xe ye i j
  · rw [if_pos hc] at hv
    exact ⟨Or.inr hv, fun _ => hv, fun h0 => absurd h0 (by omega)⟩
  · rw [if_neg hc] at hv
    exact ⟨Or.inl hv, fun hp => absurd hp hc, fun _ => hv⟩

/-- Claim C5 witness: the single point (0, 0) with edges [0, 1] on both
axes lands in cell (0, 0), whose value is 1. -/
theorem coverage_histogram2d_binary_witness :
    ((1 : ℚ) = 0 ∨ (1 : ℚ) = 1) ∧
      (0 < cellCount [((0 : ℚ), (0 : ℚ))] [0, 1] [0, 1] 0 0 → (1 : ℚ) = 1) ∧
      (cellCount [((0 : ℚ), (0 : ℚ))] [0, 1] [0, 1] 0 0 = 0 → (1 : ℚ) = 0) :=
  coverage_histogram2d_binary [((0 : ℚ), (0 : ℚ))] [0, 1] [0, 1] 0 0 1
    (by norm_num [getCell, coverage_histogram2d, hist2d, cellCount, binOf,
      clampCell, List.filter])

/-- Claim C6: for the empty point set and any pair of bin-edge lists,
coverage_histogram2d returns the all-zero grid whose shape is determined by
the edge lists (one less row than x edges, one less column than y edges),
and it is a total function (it never raises). -/
theorem coverage_histogram2d_empty (xe ye : List ℚ) :
    coverage_histogram2d [] xe ye = npZeros (xe.length - 1) (ye.length - 1) := by
  unfold coverage_histogram2d hist2d npZeros cellCount
  simp [List.map_map, Function.comp, clampCell_count, List.map_const',
    List.length_range]

/- Frequency-grid aggregation: interval_frequency_histogram2d
(coverage_frequency_map.py, lines 158 to 201; the accumulation loop is
lines 174 to 198). An interval is modelled by the outcome of running
compile_data and convert_to_grid on its file list: none when the lon/lat
columns are missing and convert_to_grid raises KeyError (the interval is
skipped by the except branch), some pts when usable projected points are
obtained. The running total H starts as the empty 1-D numpy array
np.array([]), modelled as the grid with no rows; on iteration i == 0 it is
resized in place to the shape of that interval histogram (filling with
zeros); the histogram of every non-skipped interval, re-clamped with
histogram[histogram > 0] = 1, is added elementwise. numpy raises a
broadcast ValueError when the operand shapes are incompatible; npAdd
returns none on any shape mismatch. (numpy broadcasting would accept the
corner case of the (0,)-shaped initial H added to a grid with exactly one
column, yielding an empty array; no theorem below depends on that corner.)
The transpose, NaN substitution and percent scaling that follow the loop
are display-layer and are not part of the summed grid modelled here. -/

/-- Elementwise clamp histogram[histogram > 0] = 1. -/
def clampPos (h : ℚ) : ℚ := if 0 < h then 1 else h

/-- Elementwise sum of two grids, none (numpy broadcast ValueError) when
the shapes differ. -/
def npAdd (A B : List (List ℚ)) : Option (List (List ℚ)) :=
  if A.map List.length = B.map List.length then
    some (List.zipWith (fun ra rb => List.zipWith (fun a b : ℚ => a + b) ra rb) A B)
  else none

/-- One iteration of the accumulation loop of
interval_frequency_histogram2d, at loop index i with running total H. -/
def interval_frequency_step (xe ye : List ℚ) (i : ℕ) (H : List (List ℚ))
    (iv : Option (List (ℚ × ℚ))) : Option (List (List ℚ)) :=
  match iv with
  | none => some H
  | some pts =>
    let histogram :=
      (coverage_histogram2d pts xe ye).map (fun row => row.map clampPos)
    let H0 := if i = 0 then
        npZeros histogram.length (histogram.headD []).length
      else H
    npAdd H0 histogram

def interval_frequency_go (xe ye : List ℚ) :
    ℕ → List (List ℚ) → List (Option (List (ℚ × ℚ))) → Option (List (List ℚ))
  | _, H, [] => some H
  | i, H, iv :: rest =>
    match interval_frequency_step xe ye i H iv with
    | none => none
    | some H2 => interval_frequency_go xe ye (i + 1) H2 rest

/-- Embedding of the accumulation loop of interval_frequency_histogram2d:
the summed grid over all intervals, or none when an elementwise addition
fails with a shape mismatch. -/
def interval_frequency_histogram2d (ivs : List (Option (List (ℚ × ℚ))))
    (xe ye : List ℚ) : Option (List (List ℚ)) :=
  interval_frequency_go xe ye 0 [] ivs

/- Shape bookkeeping lemmas. -/

theorem hist_shape (pts : List (ℚ × ℚ)) (xe ye : List ℚ) :
    ((coverage_histogram2d pts xe ye).map (fun row => row.map clampPos)).map
        List.length =
      List.replicate (xe.length - 1) (ye.length - 1) := by
  unfold coverage_histogram2d hist2d
  rw [List.eq_replicate_iff]
  constructor
  · simp
  · intro b hb
    simp only [List.map_map, List.mem_map, List.mem_range] at hb
    obtain ⟨i, _, rfl⟩ := hb
    simp [Function.comp, List.length_map, List.length_range]

theorem npZeros_shape (r c : ℕ) :
    (npZeros r c).map List.length = List.replicate r c := by
  simp [npZeros, List.map_replicate]

theorem headD_length_of_shape (G : List (List ℚ)) (nx ny : ℕ)
    (h : G.map List.length = List.replicate nx ny) :
    List.replicate G.length (G.headD []).length = List.replicate nx ny := by
  cases G with
  | nil =>
    have h0 : nx = 0 := by
      have h2 := congrArg List.length h
      simp at h2
      omega
    simp [h0]
  | cons r G2 =>
    cases nx with
    | zero => simp at h
    | succ k =>
      have hlen : G2.length + 1 = k + 1 := by
        have h2 := congrArg List.length h
        simp at h2
        omega
      rw [List.replicate_succ] at h
      simp only [List.map_cons, List.cons.injEq] at h
      rw [List.headD_cons, List.length_cons, hlen, h.1]

theorem zipWith_rows_length (A B : List (List ℚ))
    (h : A.map List.length = B.map List.length) :
    (List.zipWith (fun ra rb => List.zipWith (fun a b : ℚ => a + b) ra rb)
        A B).map List.length = A.map List.length := by
  induction A generalizing B with
  | nil => simp
  | cons ra A2 ih =>
    cases B with
    | nil => simp at h
    | cons rb B2 =>
      simp only [List.map_cons, List.cons.injEq] at h
      simp only [List.zipWith_cons_cons, List.map_cons]
      refine congrArg₂ _ ?_ (ih B2 h.2)
      rw [List.length_zipWith, h.1, Nat.min_self]

theorem npAdd_shape (A B : List (List ℚ)) (sh : List ℕ)
    (hA : A.map List.length = sh) (hB : B.map List.length = sh) :
    ∃ C, npAdd A B = some C ∧ C.map List.length = sh := by
  have hAB : A.map List.length = B.map List.length := by rw [hA, hB]
  refine ⟨List.zipWith (fun ra rb => List.zipWith (fun a b : ℚ => a + b) ra rb)
    A B, ?_, ?_⟩
  · unfold npAdd
    rw [hA, hB]
    simp
  · rw [zipWith_rows_length A B hAB, hA]

theorem interval_frequency_go_shape (xe ye : List ℚ)
    (ivs : List (Option (List (ℚ × ℚ)))) :
    ∀ (i : ℕ) (H : List (List ℚ)), i ≠ 0 →
      H.map List.length = List.replicate (xe.length - 1) (ye.length - 1) →
      ∃ H2, interval_frequency_go xe ye i H ivs = some H2 ∧
        H2.map List.length = List.replicate (xe.length - 1) (ye.length - 1) := by
  induction ivs with
  | nil =>
    intro i H hi hH
    exact ⟨H, rfl, hH⟩
  | cons iv rest ih =>
    intro i H hi hH
    cases iv with
    | none =>
      simpa only [interval_frequency_go, interval_frequency_step] using
        ih (i + 1) H (by omega) hH
    | some pts =>
      simp only [interval_frequency_go, interval_frequency_step, if_neg hi]
      obtain ⟨C, hC, hCs⟩ := npAdd_shape H _ _ hH (hist_shape pts xe ye)
      rw [hC]
      exact ih (i + 1) C (by omega) hCs

/-- Claim C2 (amended): the shape of the running sum grid is fixed by the
interval at loop index 0, not by the first non-skipped interval: when
interval 0 is non-skipped, the running grid takes the shape of its
occupancy grid (one less row than the x edges, one less column than the y
edges), every subsequent non-skipped interval is accumulated elementwise
onto that same grid, and the accumulation succeeds regardless of which
later intervals are skipped. (When interval 0 is skipped and a later
interval is not, the elementwise addition instead fails with a shape
mismatch; see the counterexample.) -/
theorem interval_frequency_first_interval_shape (pts : List (ℚ × ℚ))
    (rest : List (Option (List (ℚ × ℚ)))) (xe ye : List ℚ) :
    ∃ H, interval_frequency_histogram2d (some pts :: rest) xe ye = some H ∧
      H.map List.length = List.replicate (xe.length - 1) (ye.length - 1) := by
  have hhs := hist_shape pts xe ye
  have hz : (npZeros
      ((coverage_histogram2d pts xe ye).map (fun row => row.map clampPos)).length
      (((coverage_histogram2d pts xe ye).map
        (fun row => row.map clampPos)).headD []).length).map List.length =
      List.replicate (xe.length - 1) (ye.length - 1) := by
    rw [npZeros_shape]
    exact headD_length_of_shape _ _ _ hhs
  obtain ⟨C, hC, hCs⟩ := npAdd_shape _ _ _ hz hhs
  obtain ⟨H, hH, hHs⟩ :=
    interval_frequency_go_shape xe ye rest 1 C (by omega) hCs
  refine ⟨H, ?_, hHs⟩
  unfold interval_frequency_histogram2d interval_frequency_go
    interval_frequency_step
  simp only [eq_self_iff_true, if_true]
  rw [hC]
  exact hH

/-- Claim C2 counterexample: interval 0 is skipped (its files yield no
usable coordinates) and interval 1 is non-skipped, over a 2 by 2 grid;
the running total is still the initial empty array when interval 1 is
accumulated, so the elementwise addition fails with a shape mismatch
(numpy broadcast ValueError), refuting the claim that accumulation
succeeds for every sequence with at least one non-skipped interval. -/
theorem interval_frequency_skip_first_counterexample :
    interval_frequency_histogram2d [none, some [((0 : ℚ), (0 : ℚ))]]
      [0, 1, 2] [0, 1, 2] = none := by
  norm_num [interval_frequency_histogram2d, interval_frequency_go,
    interval_frequency_step, npAdd, coverage_histogram2d, hist2d]

/- Cell-value bounds for claim C4. -/

/-- Every value of every row of the grid is at most b. -/
def cellsLe (A : List (List ℚ)) (b : ℚ) : Prop :=
  ∀ row ∈ A, ∀ v ∈ row, v ≤ b

theorem cellsLe_mono (A : List (List ℚ)) (b b2 : ℚ) (h : cellsLe A b)
    (hb : b ≤ b2) : cellsLe A b2 :=
  fun row hrow v hv => le_trans (h row hrow v hv) hb

theorem mem_zipWith (f : ℚ → ℚ → ℚ) :
    ∀ (as bs : List ℚ) (v : ℚ), v ∈ List.zipWith f as bs →
      ∃ a ∈ as, ∃ b ∈ bs, v = f a b := by
  intro as
  induction as with
  | nil =>
    intro bs v hv
    simp at hv
  | cons a as2 ih =>
    intro bs v hv
    cases bs with
    | nil => simp at hv
    | cons b bs2 =>
      rw [List.zipWith_cons_cons] at hv
      rcases List.mem_cons.mp hv with h | h
      · exact ⟨a, List.mem_cons_self a as2, b, List.mem_cons_self b bs2, h⟩
      · obtain ⟨a2, ha, b2, hb, rfl⟩ := ih bs2 v h
        exact ⟨a2, List.mem_cons_of_mem a ha, b2, List.mem_cons_of_mem b hb,
          rfl⟩

theorem mem_zipWith_rows (as bs : List (List ℚ)) (row : List ℚ)
    (h : row ∈ List.zipWith
      (fun ra rb => List.zipWith (fun a b : ℚ => a + b) ra rb) as bs) :
    ∃ ra ∈ as, ∃ rb ∈ bs, row = List.zipWith (fun a b : ℚ => a + b) ra rb := by
  induction as generalizing bs with
  | nil => simp at h
  | cons ra as2 ih =>
    cases bs with
    | nil => simp at h
    | cons rb bs2 =>
      rw [List.zipWith_cons_cons] at h
      rcases List.mem_cons.mp h with h2 | h2
      · exact ⟨ra, List.mem_cons_self ra as2, rb, List.mem_cons_self rb bs2, h2⟩
      · obtain ⟨ra2, hra, rb2, hrb, rfl⟩ := ih bs2 h2
        exact ⟨ra2, List.mem_cons_of_mem ra hra, rb2,
          List.mem_cons_of_mem rb hrb, rfl⟩

theorem npAdd_cellsLe (A B C : List (List ℚ)) (a b : ℚ)
    (hA : cellsLe A a) (hB : cellsLe B b) (hC : npAdd A B = some C) :
    cellsLe C (a + b) := by
  unfold npAdd at hC
  split at hC
  · injection hC with h2
    subst h2
    intro row hrow v hv
    obtain ⟨ra, hra, rb, hrb, rfl⟩ := mem_zipWith_rows A B row hrow
    obtain ⟨x, hx, y, hy, rfl⟩ := mem_zipWith _ ra rb v hv
    exact add_le_add (hA ra hra x hx) (hB rb hrb y hy)
  · exact absurd hC (by simp)

theorem npZeros_cellsLe (r c : ℕ) (b : ℚ) (hb : 0 ≤ b) :
    cellsLe (npZeros r c) b := by
  intro row hrow v hv
  rw [npZeros] at hrow
  rw [List.eq_of_mem_replicate hrow] at hv
  rw [List.eq_of_mem_replicate hv]
  exact hb

theorem hist_cellsLe_one (pts : List (ℚ × ℚ)) (xe ye : List ℚ) :
    cellsLe ((coverage_histogram2d pts xe ye).map (fun row => row.map clampPos))
      1 := by
  intro row hrow v hv
  simp only [coverage_histogram2d, hist2d, List.map_map, List.mem_map,
    List.mem_range] at hrow
  obtain ⟨i, _, rfl⟩ := hrow
  simp only [Function.comp_apply, List.map_map, List.mem_map,
    List.mem_range] at hv
  obtain ⟨j, _, rfl⟩ := hv
  rw [clampCell_count]
  by_cases hc : 0 < cellCount pts xe ye i j
  · rw [if_pos hc]
    unfold clampPos
    norm_num
  · rw [if_neg hc]
    unfold clampPos
    norm_num

theorem interval_frequency_go_cellsLe (xe ye : List ℚ)
    (ivs : List (Option (List (ℚ × ℚ)))) :
    ∀ (i : ℕ) (H : List (List ℚ)) (n : ℚ), 0 ≤ n → cellsLe H n →
      ∀ H2, interval_frequency_go xe ye i H ivs = some H2 →
        cellsLe H2 (n + (ivs.length : ℚ)) := by
  induction ivs with
  | nil =>
    intro i H n hn hH H2 h
    simp only [interval_frequency_go, Option.some_inj] at h
    subst h
    simpa using hH
  | cons iv rest ih =>
    intro i H n hn hH H2 h
    cases iv with
    | none =>
      simp only [interval_frequency_go, interval_frequency_step] at h
      have h2 := ih (i + 1) H n hn hH H2 h
      refine cellsLe_mono _ _ _ h2 ?_
      simp only [List.length_cons]
      push_cast
      linarith
    | some pts =>
      simp only [interval_frequency_go, interval_frequency_step] at h
      cases hadd : npAdd
          (if i = 0 then
            npZeros ((coverage_histogram2d pts xe ye).map
                (fun row => row.map clampPos)).length
              (((coverage_histogram2d pts xe ye).map
                (fun row => row.map clampPos)).headD []).length
          else H)
          ((coverage_histogram2d pts xe ye).map (fun row => row.map clampPos))
          with
      | none =>
        rw [hadd] at h
        simp at h
      | some C =>
        rw [hadd] at h
        have hH0 : cellsLe (if i = 0 then
            npZeros ((coverage_histogram2d pts xe ye).map
                (fun row => row.map clampPos)).length
              (((coverage_histogram2d pts xe ye).map
                (fun row => row.map clampPos)).headD []).length
          else H) n := by
          by_cases hi : i = 0
          · rw [if_pos hi]
            exact npZeros_cellsLe _ _ n hn
          · rw [if_neg hi]
            exact hH
        have hC : cellsLe C (n + 1) :=
          npAdd_cellsLe _ _ C n 1 hH0 (hist_cellsLe_one pts xe ye) hadd
        have h2 := ih (i + 1) C (n + 1) (by linarith) hC H2 h
        refine cellsLe_mono _ _ _ h2 ?_
        simp only [List.length_cons]
        push_cast
        linarith

/-- Claim C4: whenever the accumulation loop of
interval_frequency_histogram2d completes on a list of intervals, every
cell of the resulting summed grid is at most the number of intervals;
since any list of intervals can be a prefix of a longer run, this is the
loop invariant that after each accumulate step every cell of the running
sum grid is bounded by the number of intervals processed so far, and it
holds in particular for the grid handed to finalization. -/
theorem interval_frequency_cells_le_count (ivs : List (Option (List (ℚ × ℚ))))
    (xe ye : List ℚ) (H : List (List ℚ))
    (h : interval_frequency_histogram2d ivs xe ye = some H) :
    ∀ row ∈ H, ∀ v ∈ row, v ≤ (ivs.length : ℚ) := by
  have h2 := interval_frequency_go_cellsLe xe ye ivs 0 [] 0 le_rfl
    (by intro row hrow; simp at hrow) H h
  intro row hrow v hv
  have := h2 row hrow v hv
  linarith

/-- Claim C4 witness: one non-skipped interval holding the single point
(0, 0) over the 1 by 1 grid with edges [0, 1]; the loop returns the grid
[[1]], and its cell value 1 is at most the interval count 1. -/
theorem interval_frequency_cells_le_count_witness :
    (1 : ℚ) ≤ (([some [((0 : ℚ), (0 : ℚ))]] :
      List (Option (List (ℚ × ℚ)))).length : ℚ) :=
  interval_frequency_cells_le_count [some [((0 : ℚ), (0 : ℚ))]] [0, 1] [0, 1]
    [[1]]
    (by norm_num [interval_frequency_histogram2d, interval_frequency_go,
      interval_frequency_step, npAdd, npZeros, coverage_histogram2d, hist2d,
      cellCount, binOf, clampCell, clampPos, List.filter, List.range_succ,
      List.range_zero])
    [1] (by simp) 1 (by simp)

/- Time-series aggregation: coverage_timeseries (coverage_frequency_map.py,
lines 87 to 155; the row-building loop is lines 114 to 137). Intervals are
modelled as for interval_frequency_histogram2d: none when convert_to_grid
raises KeyError for the interval (missing lon/lat columns, the loop does
continue and appends nothing), some pts otherwise. date_pairs is the
parallel list of (start_date, end_date) pairs, read by loop index; an
out-of-range index (a Python IndexError) yields none for the whole run.
The plotting and file saving after the loop are display-layer. -/

/-- Covered percentage of one interval: the number of nonzero cells of its
occupancy grid, divided by the Arctic ocean area expressed in grid cells
(15558000 square km divided by the squared integer resolution), times
100. -/
def covered_percentage (pts : List (ℚ × ℚ)) (xe ye : List ℚ)
    (resolution : ℕ) : ℚ :=
  let histogram := coverage_histogram2d pts xe ye
  let covered_area : ℕ := (histogram.flatten.filter (fun v => v != 0)).length
  let arctic_ocean_area : ℚ := 15558000 / ((resolution : ℚ) ^ 2)
  (covered_area : ℚ) / arctic_ocean_area * 100

def coverage_timeseries_go {α : Type} (datePairs : List (α × α))
    (resolution : ℕ) (xe ye : List ℚ) :
    ℕ → List (Option (List (ℚ × ℚ))) → List (ℚ × α × α) →
      Option (List (ℚ × α × α))
  | _, [], acc => some acc
  | i, iv :: rest, acc =>
    match iv with
    | none => coverage_timeseries_go datePairs resolution xe ye (i + 1) rest acc
    | some pts =>
      match datePairs[i]? with
      | none => none
      | some d =>
        coverage_timeseries_go datePairs resolution xe ye (i + 1) rest
          (acc ++ [(covered_percentage pts xe ye resolution, d.1, d.2)])

/-- Embedding of the row-building loop of coverage_timeseries: one row
(percentage, start_date, end_date) appended per non-skipped interval, in
loop order; none models an IndexError on date_pairs. -/
def coverage_timeseries_rows {α : Type} (ivs : List (Option (List (ℚ × ℚ))))
    (datePairs : List (α × α)) (resolution : ℕ) (xe ye : List ℚ) :
    Option (List (ℚ × α × α)) :=
  coverage_timeseries_go datePairs resolution xe ye 0 ivs []

theorem coverage_timeseries_go_spec {α : Type} (datePairs : List (α × α))
    (resolution : ℕ) (xe ye : List ℚ) (ivs : List (Option (List (ℚ × ℚ)))) :
    ∀ (i : ℕ) (acc : List (ℚ × α × α)),
      i + ivs.length ≤ datePairs.length →
      coverage_timeseries_go datePairs resolution xe ye i ivs acc =
        some (acc ++ (ivs.zip (datePairs.drop i)).filterMap (fun p =>
          p.1.map (fun pts =>
            (covered_percentage pts xe ye resolution, p.2.1, p.2.2)))) := by
  induction ivs with
  | nil =>
    intro i acc h
    simp [coverage_timeseries_go]
  | cons iv rest ih =>
    intro i acc h
    simp only [List.length_cons] at h
    have hi : i < datePairs.length := by omega
    rw [List.drop_eq_getElem_cons hi]
    cases iv with
    | none =>
      rw [List.zip_cons_cons, List.filterMap_cons]
      simp only [Option.map_none]
      exact ih (i + 1) acc (by omega)
    | some pts =>
      rw [List.zip_cons_cons, List.filterMap_cons]
      simp only [Option.map_some]
      show coverage_timeseries_go datePairs resolution xe ye i
          (some pts :: rest) acc = _
      have hstep : coverage_timeseries_go datePairs resolution xe ye i
          (some pts :: rest) acc =
          coverage_timeseries_go datePairs resolution xe ye (i + 1) rest
            (acc ++ [(covered_percentage pts xe ye resolution,
              datePairs[i].1, datePairs[i].2)]) := by
        simp only [coverage_timeseries_go, List.getElem?_eq_getElem hi]
      rw [hstep, ih (i + 1) _ (by omega)]
      simp

theorem filterMap_zip_rows_length_lt {α : Type} (resolution : ℕ)
    (xe ye : List ℚ) :
    ∀ (ivs : List (Option (List (ℚ × ℚ)))) (dps : List (α × α)),
      none ∈ ivs →
      ((ivs.zip dps).filterMap (fun p =>
        p.1.map (fun pts =>
          (covered_percentage pts xe ye resolution, p.2.1, p.2.2)))).length <
        ivs.length := by
  intro ivs
  induction ivs with
  | nil =>
    intro dps h
    simp at h
  | cons iv rest ih =>
    intro dps h
    cases dps with
    | nil =>
      simp only [List.zip_nil_right, List.filterMap_nil, List.length_nil,
        List.length_cons]
      omega
    | cons d dps2 =>
      rw [List.zip_cons_cons, List.filterMap_cons]
      cases iv with
      | none =>
        have hle : ((rest.zip dps2).filterMap (fun p =>
            p.1.map (fun pts =>
              (covered_percentage pts xe ye resolution,
                p.2.1, p.2.2)))).length ≤ rest.length := by
          refine le_trans (List.length_filterMap_le _ _) ?_
          rw [List.length_zip rest dps2]
          exact min_le_left _ _
        simp only [Option.map_none', List.length_cons]
        omega
      | some pts =>
        have hmem : none ∈ rest := by
          rcases List.mem_cons.mp h with h2 | h2
          · exact absurd h2.symm (Option.some_ne_none pts)
          · exact h2
        have := ih dps2 hmem
        simp only [Option.map_some', List.length_cons]
        omega

/-- Claim C3: in coverage_timeseries, an interval that yields no usable
coordinates (its convert_to_grid call raises KeyError) contributes no row
to the output table; the rows are exactly one (percentage, start_date,
end_date) triple per non-skipped interval, in interval order, and any run
containing at least one skipped interval has strictly fewer rows than
intervals. -/
theorem coverage_timeseries_skip_rows {α : Type}
    (ivs : List (Option (List (ℚ × ℚ)))) (datePairs : List (α × α))
    (resolution : ℕ) (xe ye : List ℚ)
    (hlen : ivs.length ≤ datePairs.length) :
    ∃ rows, coverage_timeseries_rows ivs datePairs resolution xe ye =
        some rows ∧
      rows = (ivs.zip datePairs).filterMap (fun p =>
        p.1.map (fun pts =>
          (covered_percentage pts xe ye resolution, p.2.1, p.2.2))) ∧
      (none ∈ ivs → rows.length < ivs.length) := by
  have h := coverage_timeseries_go_spec datePairs resolution xe ye ivs 0 []
    (by omega)
  rw [List.drop_zero] at h
  refine ⟨_, by simpa [coverage_timeseries_rows] using h, by simp, ?_⟩
  intro hmem
  exact filterMap_zip_rows_length_lt resolution xe ye ivs datePairs hmem

/-- Claim C3 witness: two intervals, the first non-skipped with the single
point (0, 0) and the second skipped, with date pairs (1, 2) and (3, 4):
the loop yields exactly one row, fewer than the two intervals. -/
theorem coverage_timeseries_skip_rows_witness :
    ∃ rows, coverage_timeseries_rows
        [some [((0 : ℚ), (0 : ℚ))], none] [((1 : ℕ), (2 : ℕ)), (3, 4)]
        1 [0, 1] [0, 1] = some rows ∧
      rows = (([some [((0 : ℚ), (0 : ℚ))], none] :
          List (Option (List (ℚ × ℚ)))).zip
            [((1 : ℕ), (2 : ℕ)), (3, 4)]).filterMap (fun p =>
        p.1.map (fun pts =>
          (covered_percentage pts [0, 1] [0, 1] 1, p.2.1, p.2.2))) ∧
      (none ∈ ([some [((0 : ℚ), (0 : ℚ))], none] :
          List (Option (List (ℚ × ℚ)))) →
        rows.length <
          ([some [((0 : ℚ), (0 : ℚ))], none] :
            List (Option (List (ℚ × ℚ)))).length) :=
  coverage_timeseries_skip_rows [some [((0 : ℚ), (0 : ℚ))], none]
    [((1 : ℕ), (2 : ℕ)), (3, 4)] 1 [0, 1] [0, 1] (by simp)

/- Delaunay triangulation driver: delaunay_triangulation
(d02_delaunay_triangulation.py). Per raw file, the starting positions are
converted to aeqd x/y by pyproj (external; the projected coordinate
arrays sX_aeqd and sY_aeqd are taken as inputs below), their zip is passed
to scipy.spatial.Delaunay, and one data row is emitted per simplex after
the header row: [n, sX1_aeqd, sX2_aeqd, sX3_aeqd, sY1_aeqd, sY2_aeqd,
sY3_aeqd, vertice_idx1, vertice_idx2, vertice_idx3], the coordinates being
read from the projected arrays at the stored vertex indices. -/

/-- Failure mode of scipy.spatial.Delaunay on degenerate input: Qhull
raises QhullError when the input points do not span 2 dimensions (fewer
than 3 points, or all points collinear); the spec names this failure
InsufficientPointsError. -/
inductive DelaunayError where
  | insufficientPoints : DelaunayError
deriving DecidableEq

/-- Cross-product test: true exactly when the three points are
collinear. -/
def collinear3 (p q r : ℚ × ℚ) : Bool :=
  decide ((q.1 - p.1) * (r.2 - p.2) - (q.2 - p.2) * (r.1 - p.1) = 0)

/-- All points of the list lie on one common line; equivalently, the list
contains no 3 non-collinear points. -/
def allCollinear (pts : List (ℚ × ℚ)) : Bool :=
  pts.all (fun p => pts.all (fun q => pts.all (fun r => collinear3 p q r)))

/-- Model of scipy.spatial.Delaunay, called at line 54 of
d02_delaunay_triangulation.py: Qhull rejects input whose affine dimension
is below 2 (fewer than 3 points, or all points collinear) with QhullError;
on non-degenerate input it returns the simplices of the library kernel,
abstracted here as the parameter simplices_of (its exact triangulation is
external to the repository). -/
def scipyDelaunay (simplices_of : List (ℚ × ℚ) → List (ℕ × ℕ × ℕ))
    (pts : List (ℚ × ℚ)) : Except DelaunayError (List (ℕ × ℕ × ℕ)) :=
  if pts.length < 3 ∨ allCollinear pts then
    Except.error DelaunayError.insufficientPoints
  else Except.ok (simplices_of pts)

/-- Claim C8: triangulation of a point set that contains fewer than 3
non-collinear points — in particular of exactly 3 collinear points — fails
with the insufficient-points error (the QhullError of scipy/Qhull, named
InsufficientPointsError by the spec), whatever the library kernel would
return on valid input. -/
theorem delaunay_degenerate_fails
    (simplices_of : List (ℚ × ℚ) → List (ℕ × ℕ × ℕ))
    (pts : List (ℚ × ℚ)) (h : pts.length < 3 ∨ allCollinear pts = true) :
    scipyDelaunay simplices_of pts =
      Except.error DelaunayError.insufficientPoints := by
  unfold scipyDelaunay
  rcases h with h | h
  · rw [if_pos (Or.inl h)]
  · rw [if_pos (Or.inr (by rw [h]))]

/-- Claim C8 witness: the 3 collinear points (0, 0), (1, 1), (2, 2) are
rejected. -/
theorem delaunay_degenerate_fails_witness :
    scipyDelaunay (fun _ => []) [((0 : ℚ), (0 : ℚ)), (1, 1), (2, 2)] =
      Except.error DelaunayError.insufficientPoints :=
  delaunay_degenerate_fails (fun _ => [])
    [((0 : ℚ), (0 : ℚ)), (1, 1), (2, 2)]
    (Or.inr (by norm_num [allCollinear, collinear3, List.all_cons,
      List.all_nil]))

/-- One output data row of the triangulation csv: triangle number, the
three vertex x coordinates and y coordinates in the aeqd transform, and
the three vertex indices into the raw file. -/
structure TriRow where
  no : ℕ
  sX1_aeqd : ℚ
  sX2_aeqd : ℚ
  sX3_aeqd : ℚ
  sY1_aeqd : ℚ
  sY2_aeqd : ℚ
  sY3_aeqd : ℚ
  vertice_idx1 : ℕ
  vertice_idx2 : ℕ
  vertice_idx3 : ℕ
deriving DecidableEq

/-- The row-building loop of delaunay_triangulation (lines 63 to 83): for
triangle n, take the three vertex indices of simplex n, read the aeqd
coordinates at those indices from the projected arrays in the order of the
source (the three x, then the three y), and append the data row. An
out-of-range index would be a Python IndexError, modelled as none (scipy
simplices always index the input points). The csv header row is not part
of the data rows. -/
def triangulation_rows_go (sX sY : List ℚ) :
    ℕ → List (ℕ × ℕ × ℕ) → Option (List TriRow)
  | _, [] => some []
  | n, (i1, i2, i3) :: rest => do
    let x1 ← sX[i1]?
    let x2 ← sX[i2]?
    let x3 ← sX[i3]?
    let y1 ← sY[i1]?
    let y2 ← sY[i2]?
    let y3 ← sY[i3]?
    let rows ← triangulation_rows_go sX sY (n + 1) rest
    return ⟨n, x1, x2, x3, y1, y2, y3, i1, i2, i3⟩ :: rows

/-- The list of data rows written for one raw file, given its projected
coordinate arrays and the simplices of its Delaunay triangulation. -/
def triangulation_rows (sX sY : List ℚ) (simplices : List (ℕ × ℕ × ℕ)) :
    Option (List TriRow) :=
  triangulation_rows_go sX sY 0 simplices

theorem triangulation_rows_go_roundtrip (sX sY : List ℚ) :
    ∀ (simplices : List (ℕ × ℕ × ℕ)) (n : ℕ) (rows : List TriRow),
      triangulation_rows_go sX sY n simplices = some rows →
      ∀ r ∈ rows,
        sX[r.vertice_idx1]? = some r.sX1_aeqd ∧
        sX[r.vertice_idx2]? = some r.sX2_aeqd ∧
        sX[r.vertice_idx3]? = some r.sX3_aeqd ∧
        sY[r.vertice_idx1]? = some r.sY1_aeqd ∧
        sY[r.vertice_idx2]? = some r.sY2_aeqd ∧
        sY[r.vertice_idx3]? = some r.sY3_aeqd := by
  intro simplices
  induction simplices with
  | nil =>
    intro n rows h r hr
    simp only [triangulation_rows_go, Option.some_inj] at h
    subst h
    simp at hr
  | cons s rest ih =>
    intro n rows h r hr
    obtain ⟨i1, i2, i3⟩ := s
    simp only [triangulation_rows_go, Option.bind_eq_bind,
      Option.bind_eq_some, Option.pure_def, Option.some_inj] at h
    obtain ⟨x1, hx1, x2, hx2, x3, hx3, y1, hy1, y2, hy2, y3, hy3, rows2,
      hrows2, hret⟩ := h
    subst hret
    rcases List.mem_cons.mp hr with hr2 | hr2
    · subst hr2
      exact ⟨hx1, hx2, hx3, hy1, hy2, hy3⟩
    · exact ih (n + 1) rows2 hrows2 r hr2

/-- Claim C9: every data row emitted by the triangulation loop stores
exactly the coordinates obtained by indexing the projected point arrays of
the same raw file with that row's own stored vertex indices; no
re-projection occurs between index lookup and coordinate storage. -/
theorem triangulation_rows_roundtrip (sX sY : List ℚ)
    (simplices : List (ℕ × ℕ × ℕ)) (rows : List TriRow)
    (h : triangulation_rows sX sY simplices = some rows) :
    ∀ r ∈ rows,
      sX[r.vertice_idx1]? = some r.sX1_aeqd ∧
      sX[r.vertice_idx2]? = some r.sX2_aeqd ∧
      sX[r.vertice_idx3]? = some r.sX3_aeqd ∧
      sY[r.vertice_idx1]? = some r.sY1_aeqd ∧
      sY[r.vertice_idx2]? = some r.sY2_aeqd ∧
      sY[r.vertice_idx3]? = some r.sY3_aeqd :=
  triangulation_rows_go_roundtrip sX sY simplices 0 rows h

/-- Claim C9 witness: one simplex (0, 1, 2) over the projected arrays
sX = [10, 20, 30], sY = [1, 2, 3]; the single emitted row stores exactly
the coordinates found at its stored vertex indices. -/
theorem triangulation_rows_roundtrip_witness :
    ([(10 : ℚ), 20, 30])[(0 : ℕ)]? = some (10 : ℚ) ∧
      ([(10 : ℚ), 20, 30])[(1 : ℕ)]? = some (20 : ℚ) ∧
      ([(10 : ℚ), 20, 30])[(2 : ℕ)]? = some (30 : ℚ) ∧
      ([(1 : ℚ), 2, 3])[(0 : ℕ)]? = some (1 : ℚ) ∧
      ([(1 : ℚ), 2, 3])[(1 : ℕ)]? = some (2 : ℚ) ∧
      ([(1 : ℚ), 2, 3])[(2 : ℕ)]? = some (3 : ℚ) :=
  triangulation_rows_roundtrip [10, 20, 30] [1, 2, 3] [(0, 1, 2)]
    [⟨0, 10, 20, 30, 1, 2, 3, 0, 1, 2⟩] rfl
    ⟨0, 10, 20, 30, 1, 2, 3, 0, 1, 2⟩ (by simp)

theorem triangulation_rows_go_numbering (sX sY : List ℚ) :
    ∀ (simplices : List (ℕ × ℕ × ℕ)) (n : ℕ) (rows : List TriRow),
      triangulation_rows_go sX sY n simplices = some rows →
      rows.length = simplices.length ∧
        ∀ (k : ℕ) (r : TriRow), rows[k]? = some r → r.no = n + k := by
  intro simplices
  induction simplices with
  | nil =>
    intro n rows h
    simp only [triangulation_rows_go, Option.some_inj] at h
    subst h
    refine ⟨rfl, ?_⟩
    intro k r hk
    simp at hk
  | cons s rest ih =>
    intro n rows h
    obtain ⟨i1, i2, i3⟩ := s
    simp only [triangulation_rows_go, Option.bind_eq_bind,
      Option.bind_eq_some, Option.pure_def, Option.some_inj] at h
    obtain ⟨x1, hx1, x2, hx2, x3, hx3, y1, hy1, y2, hy2, y3, hy3, rows2,
      hrows2, hret⟩ := h
    subst hret
    obtain ⟨hlen, hno⟩ := ih (n + 1) rows2 hrows2
    refine ⟨by simp [hlen], ?_⟩
    intro k r hk
    cases k with
    | zero =>
      simp only [List.getElem?_cons_zero, Option.some_inj] at hk
      subst hk
      simp
    | succ k2 =>
      rw [List.getElem?_cons_succ] at hk
      have := hno k2 r hk
      omega

/-- Claim C10: in the triangulation output for one raw file, the data rows
are numbered consecutively: there is exactly one data row per triangle,
and the k-th data row (0-based, after the header) carries triangle number
exactly k, a gap-free in-order enumeration starting at 0. -/
theorem triangulation_rows_numbering (sX sY : List ℚ)
    (simplices : List (ℕ × ℕ × ℕ)) (rows : List TriRow)
    (h : triangulation_rows sX sY simplices = some rows) :
    rows.length = simplices.length ∧
      ∀ (k : ℕ) (r : TriRow), rows[k]? = some r → r.no = k := by
  obtain ⟨hlen, hno⟩ := triangulation_rows_go_numbering sX sY simplices 0 rows h
  refine ⟨hlen, ?_⟩
  intro k r hk
  have := hno k r hk
  omega

/-- Claim C10 witness: two simplices over sX = [10, 20, 30, 40] and
sY = [1, 2, 3, 4]; the two data rows carry triangle numbers 0 and 1. -/
theorem triangulation_rows_numbering_witness :
    ([(⟨0, 10, 20, 30, 1, 2, 3, 0, 1, 2⟩ : TriRow),
      ⟨1, 20, 30, 40, 2, 3, 4, 1, 2, 3⟩] : List TriRow).length =
        ([((0 : ℕ), (1 : ℕ), (2 : ℕ)), (1, 2, 3)] :
          List (ℕ × ℕ × ℕ)).length ∧
      ∀ (k : ℕ) (r : TriRow),
        ([(⟨0, 10, 20, 30, 1, 2, 3, 0, 1, 2⟩ : TriRow),
          ⟨1, 20, 30, 40, 2, 3, 4, 1, 2, 3⟩] : List TriRow)[k]? = some r →
          r.no = k :=
  triangulation_rows_numbering [10, 20, 30, 40] [1, 2, 3, 4]
    [(0, 1, 2), (1, 2, 3)]
    [⟨0, 10, 20, 30, 1, 2, 3, 0, 1, 2⟩, ⟨1, 20, 30, 40, 2, 3, 4, 1, 2, 3⟩]
    rfl
